import Mathlib

/-!
Verification of the quantization-and-decomposition engine of the
geometric-particle-physics repository.

The development shallowly embeds the numeric core of the Python scripts:

* the exponent quantizer (quantum_number_analysis.py, model_builder_clean.py,
  n_value_analysis.py): n = log(mass/m_e)/log(phi), n_quantized = round(4n)/4,
  q = 4*n_quantized;
* the 8/15/24 basis decomposition loops (q_pattern_analysis.py);
* the data loaders with the hard-coded exact_q table (q_pattern_analysis.py,
  a5_casimir_ratio.py, definitive_a5_model_fixed.py);
* the A5-state predictor (model_builder_clean.py);
* the least-squares fitter boundary (np.linalg.lstsq callers).

Python floats are modelled as real numbers; Python round (round half to
even) is modelled by pyRound; fallible Python operations (math.log on a
non-positive argument, dict subscripting on a missing key) are modelled
with Except.
-/

/-- Golden ratio, as computed at the top of every analysis script:
phi = (1 + sqrt(5)) / 2. -/
noncomputable def phi : ℝ := (1 + Real.sqrt 5) / 2

/-- Python's built-in round: round half to even (banker's rounding). -/
noncomputable def pyRound (x : ℝ) : ℤ :=
  let k : ℤ := ⌊x⌋
  if x - k < 1 / 2 then k
  else if 1 / 2 < x - k then k + 1
  else if Even k then k else k + 1

/-- Errors a Python numeric call can raise.  valueError is the math-domain
error raised by math.log on a non-positive argument; keyError is raised by
dict subscripting on a missing key.  invalidMass is the InvalidMassError of
the spec's error taxonomy; it appears nowhere in the code. -/
inductive PyError where
  | valueError : PyError
  | keyError : PyError
  | invalidMass : PyError
deriving DecidableEq

/-- Python's math.log: raises the math-domain ValueError on a non-positive
argument, otherwise returns the natural logarithm. -/
noncomputable def pyLog (x : ℝ) : Except PyError ℝ :=
  if x ≤ 0 then .error .valueError else .ok (Real.log x)

/-- Raw golden-ratio exponent of a mass against the reference mass, as in
quantum_number_analysis.py line 32: n = log(mass/m_e) / log(phi). -/
noncomputable def nRaw (mass m_e : ℝ) : ℝ :=
  Real.log (mass / m_e) / Real.log phi

/-- Quantized exponent, quantum_number_analysis.py line 33:
n_quantized = round(n * 4) / 4. -/
noncomputable def nQuantized (mass m_e : ℝ) : ℝ :=
  (pyRound (nRaw mass m_e * 4) : ℝ) / 4

/-- Integer code, quantum_number_analysis.py lines 34 and 40:
q = 4 * n_quantized, stored as int(round(q)). -/
noncomputable def qCode (mass m_e : ℝ) : ℤ :=
  pyRound (4 * nQuantized mass m_e)

/-- Evaluation form of pyRound away from the half-integer boundary. -/
theorem pyRound_eq_of_lt_half (x : ℝ) (a : ℤ) (h1 : (a : ℝ) ≤ x)
    (h2 : x < a + 1 / 2) : pyRound x = a := by
  have hfl : ⌊x⌋ = a := by
    apply Int.floor_eq_iff.mpr
    constructor
    · exact h1
    · have : (1 : ℝ) / 2 < 1 := by norm_num
      push_cast
      linarith
  unfold pyRound
  rw [hfl]
  have h3 : x - a < 1 / 2 := by linarith
  rw [if_pos h3]

/-- pyRound of an integer is that integer. -/
theorem pyRound_intCast (a : ℤ) : pyRound (a : ℝ) = a := by
  apply pyRound_eq_of_lt_half
  · exact le_refl _
  · norm_num

/-- C1.  The quantizer returns n_raw = ln(mass/reference)/ln(phi) with
phi = (1+sqrt 5)/2, integer code pyRound (4 * n_raw) and quantized exponent
(pyRound (4 * n_raw)) / 4; in particular n_raw = 0 and q = 0 when the mass
equals the reference. -/
theorem quantizer_contract (mass m_e : ℝ) (hm : 0 < mass) (hr : 0 < m_e) :
    nRaw mass m_e = Real.log (mass / m_e) / Real.log ((1 + Real.sqrt 5) / 2) ∧
    qCode mass m_e = pyRound (4 * nRaw mass m_e) ∧
    nQuantized mass m_e = (pyRound (4 * nRaw mass m_e) : ℝ) / 4 ∧
    (mass = m_e → nRaw mass m_e = 0 ∧ qCode mass m_e = 0) := by
  have hcomm : nRaw mass m_e * 4 = 4 * nRaw mass m_e := by ring
  have hq : qCode mass m_e = pyRound (4 * nRaw mass m_e) := by
    unfold qCode nQuantized
    rw [hcomm]
    have : (4 : ℝ) * ((pyRound (4 * nRaw mass m_e) : ℝ) / 4) =
        ((pyRound (4 * nRaw mass m_e) : ℤ) : ℝ) := by ring
    rw [this, pyRound_intCast]
  refine ⟨rfl, hq, ?_, ?_⟩
  · unfold nQuantized
    rw [hcomm]
  · intro he
    have h0 : nRaw mass m_e = 0 := by
      unfold nRaw
      rw [he, div_self (ne_of_gt hr), Real.log_one, zero_div]
    refine ⟨h0, ?_⟩
    rw [hq, h0]
    have : (4 : ℝ) * 0 = ((0 : ℤ) : ℝ) := by norm_num
    rw [this, pyRound_intCast]

/-- Witness for C1 at the electron scenario: mass = reference
= 0.0005109989461 gives n_raw = 0 and q = 0. -/
theorem quantizer_contract_witness :
    nRaw 0.0005109989461 0.0005109989461 = 0 ∧
    qCode 0.0005109989461 0.0005109989461 = 0 :=
  (quantizer_contract 0.0005109989461 0.0005109989461 (by norm_num)
    (by norm_num)).2.2.2 rfl

/-- C6.  The quantizer is scale invariant: simultaneously rescaling the mass
and the reference by any k > 0 leaves n_raw, the quantized exponent and the
integer code unchanged. -/
theorem quantizer_scale_invariant (mass m_e k : ℝ) (hm : 0 < mass)
    (hr : 0 < m_e) (hk : 0 < k) :
    nRaw (k * mass) (k * m_e) = nRaw mass m_e ∧
    nQuantized (k * mass) (k * m_e) = nQuantized mass m_e ∧
    qCode (k * mass) (k * m_e) = qCode mass m_e := by
  have hdiv : k * mass / (k * m_e) = mass / m_e :=
    mul_div_mul_left mass m_e (ne_of_gt hk)
  have hn : nRaw (k * mass) (k * m_e) = nRaw mass m_e := by
    unfold nRaw
    rw [hdiv]
  refine ⟨hn, ?_, ?_⟩
  · unfold nQuantized
    rw [hn]
  · unfold qCode nQuantized
    rw [hn]

/-- Witness for C6 at mass = 1, reference = 1, k = 2. -/
theorem quantizer_scale_invariant_witness :
    nRaw (2 * 1) (2 * 1) = nRaw 1 1 ∧
    nQuantized (2 * 1) (2 * 1) = nQuantized 1 1 ∧
    qCode (2 * 1) (2 * 1) = qCode 1 1 :=
  quantizer_scale_invariant 1 1 2 (by norm_num) (by norm_num) (by norm_num)

/-- Integer code as computed in model_builder_clean.py lines 35-36, where q
is kept as the float n_quantized * 4 rather than re-rounded. -/
noncomputable def qFloat (mass m_e : ℝ) : ℝ := nQuantized mass m_e * 4

/-- C10.  The pipeline q = 4 * (round(4n)/4) is the integer round(4n) by
construction, for every real exponent n: the re-rounded integer code of
quantum_number_analysis.py equals round(4n), and the float code of
model_builder_clean.py equals the cast of the same integer, so integrality
of q never depends on 4n being an integer. -/
theorem qCode_integral (mass m_e : ℝ) :
    qCode mass m_e = pyRound (nRaw mass m_e * 4) ∧
    qFloat mass m_e = ((pyRound (nRaw mass m_e * 4) : ℤ) : ℝ) := by
  constructor
  · unfold qCode nQuantized
    have : (4 : ℝ) * ((pyRound (nRaw mass m_e * 4) : ℝ) / 4) =
        ((pyRound (nRaw mass m_e * 4) : ℤ) : ℝ) := by ring
    rw [this, pyRound_intCast]
  · unfold qFloat nQuantized
    ring

/-- Rational lower bound for sqrt 5. -/
theorem sqrt5_lb : (2.2360679774 : ℝ) < Real.sqrt 5 := by
  rw [show (5 : ℝ) = (5 : ℝ) from rfl] at *
  have h : (2.2360679774 : ℝ) ^ 2 < 5 := by norm_num
  exact (Real.lt_sqrt (by norm_num)).mpr h

/-- Rational upper bound for sqrt 5. -/
theorem sqrt5_ub : Real.sqrt 5 < 2.2360679776 := by
  have h : (5 : ℝ) < 2.2360679776 ^ 2 := by norm_num
  exact (Real.sqrt_lt' (by norm_num)).mpr h

/-- Rational lower bound for phi. -/
theorem phi_lb : (1.6180339887 : ℝ) < phi := by
  unfold phi
  have := sqrt5_lb
  norm_num at this ⊢
  linarith

/-- Rational upper bound for phi. -/
theorem phi_ub : phi < 1.6180339888 := by
  unfold phi
  have := sqrt5_ub
  norm_num at this ⊢
  linarith

/-- phi exceeds 1. -/
theorem one_lt_phi : (1 : ℝ) < phi := by
  have := phi_lb
  linarith

/-- phi is positive. -/
theorem phi_pos : (0 : ℝ) < phi := lt_trans one_pos one_lt_phi

/-- The natural log of phi is positive. -/
theorem log_phi_pos : 0 < Real.log phi := Real.log_pos one_lt_phi

/-- Mass ratio of the muon scenario as a single rational. -/
theorem muon_mass_div :
    (0.1056583745 : ℝ) / 0.0005109989461 = 1056583745000 / 5109989461 := by
  norm_num

/-- Lower and upper bound for the raw muon exponent against the electron
reference: it lies strictly between 11.05 and 11.1. -/
theorem muon_nRaw_bounds :
    11.05 < nRaw 0.1056583745 0.0005109989461 ∧
    nRaw 0.1056583745 0.0005109989461 < 11.1 := by
  have hr : (0.1056583745 : ℝ) / 0.0005109989461 = 1056583745000 / 5109989461 :=
    muon_mass_div
  have hrpos : (0 : ℝ) < 1056583745000 / 5109989461 := by norm_num
  have hlow : phi ^ 221 < (1056583745000 / 5109989461 : ℝ) ^ 20 := by
    calc phi ^ 221 < (1.6180339888 : ℝ) ^ 221 :=
          pow_lt_pow_left phi_ub (le_of_lt phi_pos) (by norm_num)
      _ < (1056583745000 / 5109989461 : ℝ) ^ 20 := by norm_num
  have hhigh : (1056583745000 / 5109989461 : ℝ) ^ 10 < phi ^ 111 := by
    calc (1056583745000 / 5109989461 : ℝ) ^ 10 < (1.6180339887 : ℝ) ^ 111 := by
          norm_num
      _ < phi ^ 111 := pow_lt_pow_left phi_lb (by norm_num) (by norm_num)
  have hlog1 : (221 : ℝ) * Real.log phi < 20 * Real.log (1056583745000 / 5109989461) := by
    have := Real.log_lt_log (pow_pos phi_pos 221) hlow
    rw [Real.log_pow, Real.log_pow] at this
    push_cast at this
    linarith
  have hlog2 : (10 : ℝ) * Real.log (1056583745000 / 5109989461) < 111 * Real.log phi := by
    have := Real.log_lt_log (pow_pos hrpos 10) hhigh
    rw [Real.log_pow, Real.log_pow] at this
    push_cast at this
    linarith
  constructor
  · unfold nRaw
    rw [hr, lt_div_iff log_phi_pos]
    linarith [log_phi_pos]
  · unfold nRaw
    rw [hr, div_lt_iff log_phi_pos]
    linarith [log_phi_pos]

/-- Counterexample to C5 as stated: for the muon mass 0.1056583745 against
the electron reference 0.0005109989461, the raw exponent is NOT within 0.05
of 11.0 (it exceeds 11.05). -/
theorem muon_nRaw_not_within_005 :
    ¬ |nRaw 0.1056583745 0.0005109989461 - 11.0| ≤ 0.05 := by
  intro hc
  have h := muon_nRaw_bounds
  have h2 := abs_le.mp hc
  linarith [h.1, h2.1, h2.2]

/-- C5 amended.  For the muon scenario the raw exponent is within 0.1 of
11.0 (it lies between 11.05 and 11.1), and the quantized integer code is 44. -/
theorem muon_quantizer_scenario :
    |nRaw 0.1056583745 0.0005109989461 - 11.0| < 0.1 ∧
    qCode 0.1056583745 0.0005109989461 = 44 := by
  have h := muon_nRaw_bounds
  constructor
  · rw [abs_lt]
    constructor <;> linarith [h.1, h.2]
  · have hq := (qCode_integral 0.1056583745 0.0005109989461).1
    rw [hq]
    apply pyRound_eq_of_lt_half
    · push_cast
      linarith [h.1]
    · push_cast
      linarith [h.2]

/-- Inclusive integer range lo..hi as a list, mirroring the Python idiom
range(lo, hi+1) used by every search loop. -/
def rangeInt (lo hi : ℤ) : List ℤ :=
  (List.range (hi + 1 - lo).toNat).map (fun i => lo + (i : ℤ))

/-- Membership in rangeInt is exactly the inclusive bound pair. -/
theorem mem_rangeInt {lo hi x : ℤ} : x ∈ rangeInt lo hi ↔ lo ≤ x ∧ x ≤ hi := by
  simp [rangeInt]
  constructor
  · rintro ⟨i, ⟨i1, h1, rfl⟩, rfl⟩
    constructor <;> omega
  · rintro ⟨h1, h2⟩
    exact ⟨x - lo, ⟨(x - lo).toNat, by omega, by omega⟩, by omega⟩

/-- The bounded search box of the decomposition loops, enumerated in the
source's nesting order: a outermost, then b, then c. -/
def boxTriples (alo ahi blo bhi clo chi : ℤ) : List (ℤ × ℤ × ℤ) :=
  (rangeInt alo ahi).flatMap fun a =>
    (rangeInt blo bhi).flatMap fun b =>
      (rangeInt clo chi).map fun c => (a, b, c)

/-- Membership in the search box is exactly the three bound pairs. -/
theorem mem_boxTriples {alo ahi blo bhi clo chi : ℤ} {t : ℤ × ℤ × ℤ} :
    t ∈ boxTriples alo ahi blo bhi clo chi ↔
      alo ≤ t.1 ∧ t.1 ≤ ahi ∧ blo ≤ t.2.1 ∧ t.2.1 ≤ bhi ∧
        clo ≤ t.2.2 ∧ t.2.2 ≤ chi := by
  obtain ⟨a, b, c⟩ := t
  simp [boxTriples, mem_rangeInt]
  constructor
  · rintro ⟨a1, ⟨h1, h2⟩, a2, ⟨h3, h4⟩, a3, ⟨h5, h6⟩, rfl, rfl, rfl⟩
    exact ⟨h1, h2, h3, h4, h5, h6⟩
  · rintro ⟨h1, h2, h3, h4, h5, h6⟩
    exact ⟨a, ⟨h1, h2⟩, b, ⟨h3, h4⟩, c, ⟨h5, h6⟩, rfl, rfl, rfl⟩

/-- The fixed basis combination a*8 + b*15 + c*24 of q_pattern_analysis.py. -/
def linComb (t : ℤ × ℤ × ℤ) : ℤ := t.1 * 8 + t.2.1 * 15 + t.2.2 * 24

/-- Translation of the representation-collecting loop of q_pattern_analysis.py
lines 104-119: for each triple in the box compute d = q - (a*8 + b*15 + c*24)
and collect (a, b, c, d) whenever |d| <= tol.  The hard-coded box [-10,10]^3
and tolerance 10 are made parameters, the centralization the spec prescribes
for the repeated loops. -/
def representationsFor (q tol alo ahi blo bhi clo chi : ℤ) :
    List (ℤ × ℤ × ℤ × ℤ) :=
  (boxTriples alo ahi blo bhi clo chi).flatMap fun t =>
    if |q - linComb t| ≤ tol then [(t.1, t.2.1, t.2.2, q - linComb t)] else []

/-- Exact mode of the Basis Decomposer: tolerance 0, so exactly the triples
with a*8 + b*15 + c*24 = q, in loop order. -/
def decomposeExact (q alo ahi blo bhi clo chi : ℤ) : List (ℤ × ℤ × ℤ) :=
  (representationsFor q 0 alo ahi blo bhi clo chi).map fun r =>
    (r.1, r.2.1, r.2.2.1)

/-- Membership in the collected representations. -/
theorem mem_representationsFor {q tol alo ahi blo bhi clo chi a b c d : ℤ} :
    (a, b, c, d) ∈ representationsFor q tol alo ahi blo bhi clo chi ↔
      ((a, b, c) ∈ boxTriples alo ahi blo bhi clo chi ∧
        d = q - linComb (a, b, c) ∧ |d| ≤ tol) := by
  simp only [representationsFor, List.mem_flatMap]
  constructor
  · rintro ⟨t, ht, hmem⟩
    obtain ⟨a', b', c'⟩ := t
    by_cases hcond : |q - linComb (a', b', c')| ≤ tol
    · rw [if_pos hcond] at hmem
      simp only [List.mem_singleton, Prod.mk.injEq] at hmem
      obtain ⟨rfl, rfl, rfl, rfl⟩ := hmem
      exact ⟨ht, rfl, hcond⟩
    · rw [if_neg hcond] at hmem
      cases hmem
  · rintro ⟨hbox, rfl, htol⟩
    refine ⟨(a, b, c), hbox, ?_⟩
    rw [if_pos htol]
    exact List.mem_singleton.mpr rfl

/-- C2.  Exact mode of the Basis Decomposer returns exactly the triples of
the box satisfying a*8 + b*15 + c*24 = q: every in-box solution is included
and nothing else; in particular an unreachable q yields the empty list. -/
theorem decomposeExact_mem_iff (q a b c alo ahi blo bhi clo chi : ℤ) :
    (a, b, c) ∈ decomposeExact q alo ahi blo bhi clo chi ↔
      (alo ≤ a ∧ a ≤ ahi ∧ blo ≤ b ∧ b ≤ bhi ∧ clo ≤ c ∧ c ≤ chi ∧
        a * 8 + b * 15 + c * 24 = q) := by
  simp only [decomposeExact, List.mem_map]
  constructor
  · rintro ⟨⟨ra, rb, rc, rd⟩, hr, heq⟩
    simp only [Prod.mk.injEq] at heq
    obtain ⟨rfl, rfl, rfl⟩ := heq
    obtain ⟨hbox, hd, htol⟩ := mem_representationsFor.mp hr
    have hb6 := mem_boxTriples.mp hbox
    have hd0 : rd = 0 := abs_eq_zero.mp (le_antisymm htol (abs_nonneg rd))
    rw [hd0] at hd
    simp [linComb] at hd
    refine ⟨hb6.1, hb6.2.1, hb6.2.2.1, hb6.2.2.2.1, hb6.2.2.2.2.1,
      hb6.2.2.2.2.2, by omega⟩
  · rintro ⟨ha1, ha2, hb1, hb2, hc1, hc2, hlin⟩
    refine ⟨(a, b, c, 0), ?_, rfl⟩
    apply mem_representationsFor.mpr
    refine ⟨mem_boxTriples.mpr ⟨ha1, ha2, hb1, hb2, hc1, hc2⟩, ?_, by simp⟩
    simp [linComb]
    omega

set_option maxRecDepth 40000 in
/-- Witness for C2: (1,1,1) is recovered from its own combination 47 in the
box [-5,5]^3, and the unreachable target 999999 yields the empty result set
(concrete scenario 4). -/
theorem decomposeExact_mem_iff_witness :
    (1, 1, 1) ∈ decomposeExact 47 (-5) 5 (-5) 5 (-5) 5 ∧
    decomposeExact 999999 (-5) 5 (-5) 5 (-5) 5 = [] :=
  ⟨(decomposeExact_mem_iff 47 1 1 1 (-5) 5 (-5) 5 (-5) 5).mpr (by decide),
    by decide⟩

/-- Translation of the best-fit update of q_pattern_analysis.py lines 76-88:
a candidate triple with offset d = q - (a*8 + b*15 + c*24) is considered when
|d| < 20 and replaces the stored best exactly when its error |d| is strictly
smaller; the initial best error float(inf) is modelled by none. -/
def bestFitStep (q : ℤ) (st : Option ℤ × (ℤ × ℤ × ℤ × ℤ)) (t : ℤ × ℤ × ℤ) :
    Option ℤ × (ℤ × ℤ × ℤ × ℤ) :=
  if |q - linComb t| < 20 then
    match st.1 with
    | none => (some |q - linComb t|, (t.1, t.2.1, t.2.2, q - linComb t))
    | some be =>
        if |q - linComb t| < be then
          (some |q - linComb t|, (t.1, t.2.1, t.2.2, q - linComb t))
        else st
  else st

/-- Best-fit mode of q_pattern_analysis.py lines 71-94: scan the hard-coded
box a in [-30,30], b in [-20,20], c in [-10,10] in loop order and keep the
first strict improvement, starting from best_coeffs = (0,0,0,0). -/
def express_q_best_fit (q : ℤ) : ℤ × ℤ × ℤ × ℤ :=
  ((boxTriples (-30) 30 (-20) 20 (-10) 10).foldl (bestFitStep q)
    (none, (0, 0, 0, 0))).2

/-- Once the stored best error is zero, no later candidate replaces it,
since replacement needs a strictly smaller error. -/
theorem bestFitStep_fixed (q : ℤ) (co : ℤ × ℤ × ℤ × ℤ) (t : ℤ × ℤ × ℤ) :
    bestFitStep q (some 0, co) t = (some 0, co) := by
  simp [bestFitStep, (abs_nonneg (q - linComb t)).not_lt]

/-- Folding from a zero-error state is the identity. -/
theorem foldl_bestFitStep_fixed (q : ℤ) (co : ℤ × ℤ × ℤ × ℤ)
    (l : List (ℤ × ℤ × ℤ)) :
    l.foldl (bestFitStep q) (some 0, co) = (some 0, co) := by
  induction l with
  | nil => rfl
  | cons t ts ih =>
    rw [List.foldl_cons, bestFitStep_fixed]
    exact ih

/-- One best-fit step never increases the stored error. -/
theorem bestFitStep_err_le (q e : ℤ) (co : ℤ × ℤ × ℤ × ℤ) (t : ℤ × ℤ × ℤ) :
    ∃ e2, (bestFitStep q (some e, co) t).1 = some e2 ∧ e2 ≤ e := by
  unfold bestFitStep
  by_cases h20 : |q - linComb t| < 20
  · rw [if_pos h20]
    by_cases himp : |q - linComb t| < e
    · exact ⟨|q - linComb t|, by simp [himp], le_of_lt himp⟩
    · exact ⟨e, by simp [himp], le_refl e⟩
  · rw [if_neg h20]
    exact ⟨e, rfl, le_refl e⟩

/-- After one step on a qualifying candidate the stored error is at most the
candidate's error. -/
theorem bestFitStep_err_qual (q : ℤ) (st : Option ℤ × (ℤ × ℤ × ℤ × ℤ))
    (t : ℤ × ℤ × ℤ) (hq : |q - linComb t| < 20) :
    ∃ e2, (bestFitStep q st t).1 = some e2 ∧ e2 ≤ |q - linComb t| := by
  obtain ⟨err, co⟩ := st
  cases err with
  | none => exact ⟨|q - linComb t|, by simp [bestFitStep, hq], le_refl _⟩
  | some be =>
    unfold bestFitStep
    rw [if_pos hq]
    by_cases himp : |q - linComb t| < be
    · exact ⟨|q - linComb t|, by simp [himp], le_refl _⟩
    · exact ⟨be, by simp [himp], by omega⟩

/-- The stored error never increases along a fold. -/
theorem foldl_bestFitStep_err_le (q : ℤ) (l : List (ℤ × ℤ × ℤ)) (e : ℤ)
    (co : ℤ × ℤ × ℤ × ℤ) :
    ∃ e2, (l.foldl (bestFitStep q) (some e, co)).1 = some e2 ∧ e2 ≤ e := by
  induction l generalizing e co with
  | nil => exact ⟨e, rfl, le_refl e⟩
  | cons t ts ih =>
    rw [List.foldl_cons]
    obtain ⟨e1, he1, hle1⟩ := bestFitStep_err_le q e co t
    rcases hst : bestFitStep q (some e, co) t with ⟨err1, co1⟩
    rw [hst] at he1
    simp only at he1
    subst he1
    obtain ⟨e2, he2, hle2⟩ := ih e1 co1
    exact ⟨e2, he2, le_trans hle2 hle1⟩

/-- The final stored error is at most the error of every qualifying
candidate in the scanned list. -/
theorem foldl_bestFitStep_min (q : ℤ) (l : List (ℤ × ℤ × ℤ))
    (st : Option ℤ × (ℤ × ℤ × ℤ × ℤ)) (t : ℤ × ℤ × ℤ) (ht : t ∈ l)
    (hq : |q - linComb t| < 20) :
    ∃ e2, (l.foldl (bestFitStep q) st).1 = some e2 ∧
      e2 ≤ |q - linComb t| := by
  induction l generalizing st with
  | nil => cases ht
  | cons u us ih =>
    rw [List.foldl_cons]
    rcases List.mem_cons.mp ht with heq | hmem
    · subst heq
      obtain ⟨e1, he1, hle1⟩ := bestFitStep_err_qual q st t hq
      rcases hst : bestFitStep q st t with ⟨err1, co1⟩
      rw [hst] at he1
      simp only at he1
      subst he1
      obtain ⟨e2, he2, hle2⟩ := foldl_bestFitStep_err_le q us e1 co1
      exact ⟨e2, he2, le_trans hle2 hle1⟩
    · exact ih (bestFitStep q st u) hmem

/-- Soundness invariant of the best-fit state: whenever an error is stored,
it is the absolute offset of the stored coefficients, and the stored
(a, b, c, d) satisfies a*8 + b*15 + c*24 + d = q. -/
def BestInv (q : ℤ) (st : Option ℤ × (ℤ × ℤ × ℤ × ℤ)) : Prop :=
  ∀ e, st.1 = some e →
    e = |st.2.2.2.2| ∧
      linComb (st.2.1, st.2.2.1, st.2.2.2.1) + st.2.2.2.2 = q

/-- Shape of a best-fit step that records the first qualifying candidate. -/
theorem bestFitStep_none (q : ℤ) (co : ℤ × ℤ × ℤ × ℤ) (t : ℤ × ℤ × ℤ)
    (h20 : |q - linComb t| < 20) :
    bestFitStep q (none, co) t =
      (some |q - linComb t|, (t.1, t.2.1, t.2.2, q - linComb t)) := by
  simp [bestFitStep, h20]

/-- Shape of a best-fit step that strictly improves the stored error. -/
theorem bestFitStep_update (q be : ℤ) (co : ℤ × ℤ × ℤ × ℤ) (t : ℤ × ℤ × ℤ)
    (h20 : |q - linComb t| < 20) (himp : |q - linComb t| < be) :
    bestFitStep q (some be, co) t =
      (some |q - linComb t|, (t.1, t.2.1, t.2.2, q - linComb t)) := by
  simp [bestFitStep, h20, himp]

/-- A candidate beyond the offset cutoff leaves the state unchanged. -/
theorem bestFitStep_keep_cut (q : ℤ) (st : Option ℤ × (ℤ × ℤ × ℤ × ℤ))
    (t : ℤ × ℤ × ℤ) (h20 : ¬ |q - linComb t| < 20) :
    bestFitStep q st t = st := by
  obtain ⟨err, co⟩ := st
  simp [bestFitStep, h20]

/-- A candidate that does not strictly improve the error leaves the state
unchanged. -/
theorem bestFitStep_keep (q be : ℤ) (co : ℤ × ℤ × ℤ × ℤ) (t : ℤ × ℤ × ℤ)
    (himp : ¬ |q - linComb t| < be) :
    bestFitStep q (some be, co) t = (some be, co) := by
  by_cases h20 : |q - linComb t| < 20
  · simp [bestFitStep, h20, himp]
  · simp [bestFitStep, h20]

/-- One best-fit step preserves the soundness invariant. -/
theorem bestFitStep_inv (q : ℤ) (st : Option ℤ × (ℤ × ℤ × ℤ × ℤ))
    (t : ℤ × ℤ × ℤ) (h : BestInv q st) : BestInv q (bestFitStep q st t) := by
  obtain ⟨err, co⟩ := st
  by_cases h20 : |q - linComb t| < 20
  · cases err with
    | none =>
      rw [bestFitStep_none q co t h20]
      intro e he
      injection he with he
      subst he
      refine ⟨rfl, ?_⟩
      simp [linComb]
    | some be =>
      by_cases himp : |q - linComb t| < be
      · rw [bestFitStep_update q be co t h20 himp]
        intro e he
        injection he with he
        subst he
        refine ⟨rfl, ?_⟩
        simp [linComb]
      · rw [bestFitStep_keep q be co t himp]
        exact h
  · rw [bestFitStep_keep_cut q (err, co) t h20]
    exact h

/-- The fold preserves the soundness invariant. -/
theorem foldl_bestFitStep_inv (q : ℤ) (l : List (ℤ × ℤ × ℤ))
    (st : Option ℤ × (ℤ × ℤ × ℤ × ℤ)) (h : BestInv q st) :
    BestInv q (l.foldl (bestFitStep q) st) := by
  induction l generalizing st with
  | nil => exact h
  | cons t ts ih => exact ih _ (bestFitStep_inv q st t h)

/-- C3 amended.  For every target q, the best-fit search returns a tuple
(a0, b0, c0, d0) with a0*8 + b0*15 + c0*24 + d0 = q whose error |d0| is
minimal over every candidate of the hard-coded box with offset below the
cutoff; ties are broken by loop order, not by smallest coefficient size. -/
theorem express_q_best_fit_minimal (q a b c : ℤ)
    (ha1 : -30 ≤ a) (ha2 : a ≤ 30) (hb1 : -20 ≤ b) (hb2 : b ≤ 20)
    (hc1 : -10 ≤ c) (hc2 : c ≤ 10) (hq : |q - linComb (a, b, c)| < 20) :
    linComb ((express_q_best_fit q).1, (express_q_best_fit q).2.1,
      (express_q_best_fit q).2.2.1) + (express_q_best_fit q).2.2.2 = q ∧
    |(express_q_best_fit q).2.2.2| ≤ |q - linComb (a, b, c)| := by
  have hmem : (a, b, c) ∈ boxTriples (-30) 30 (-20) 20 (-10) 10 :=
    mem_boxTriples.mpr ⟨ha1, ha2, hb1, hb2, hc1, hc2⟩
  obtain ⟨e, he, hle⟩ :=
    foldl_bestFitStep_min q (boxTriples (-30) 30 (-20) 20 (-10) 10)
      (none, (0, 0, 0, 0)) (a, b, c) hmem hq
  have hinv :=
    foldl_bestFitStep_inv q (boxTriples (-30) 30 (-20) 20 (-10) 10)
      (none, (0, 0, 0, 0)) (by intro e he; cases he)
  obtain ⟨h1, h2⟩ := hinv e he
  unfold express_q_best_fit
  refine ⟨h2, ?_⟩
  rw [← h1]
  exact hle

/-- Witness for C3 at q = 47 and the in-box candidate (1, 1, 1), whose
offset is 0. -/
theorem express_q_best_fit_minimal_witness :
    linComb ((express_q_best_fit 47).1, (express_q_best_fit 47).2.1,
      (express_q_best_fit 47).2.2.1) + (express_q_best_fit 47).2.2.2 = 47 ∧
    |(express_q_best_fit 47).2.2.2| ≤ |47 - linComb (1, 1, 1)| :=
  express_q_best_fit_minimal 47 1 1 1 (by decide) (by decide) (by decide)
    (by decide) (by decide) (by decide) (by decide)

/-- Unfolding lemma for the best-fit search, stated propositionally so that
later rewrites never ask the kernel to evaluate the 52k-step fold. -/
theorem express_q_best_fit_def (q : ℤ) :
    express_q_best_fit q =
      ((boxTriples (-30) 30 (-20) 20 (-10) 10).foldl (bestFitStep q)
        (none, (0, 0, 0, 0))).2 := rfl

set_option maxRecDepth 40000 in
/-- Counterexample to C3 as stated: at q = 0 the search returns the first
zero-error candidate in loop order, (-30, 0, 10) with offset 0, although the
zero-error candidate (0, 0, 0) has strictly smaller |a| + |b| + |c|, so ties
are not broken by smallest |a| + |b| + |c|. -/
theorem express_q_best_fit_counterexample :
    express_q_best_fit 0 = (-30, 0, 10, 0) ∧
    linComb (0, 0, 0) = 0 ∧
    |(0 : ℤ)| + |(0 : ℤ)| + |(0 : ℤ)| < |(-30 : ℤ)| + |(0 : ℤ)| + |(10 : ℤ)| := by
  refine ⟨?_, by decide, by decide⟩
  have h1 : List.foldl (bestFitStep 0) (none, (0, 0, 0, 0))
      ((boxTriples (-30) 30 (-20) 20 (-10) 10).take 441) =
      (some 0, (-30, 0, 10, 0)) := by
    decide
  have h2 : List.foldl (bestFitStep 0) (none, (0, 0, 0, 0))
      ((boxTriples (-30) 30 (-20) 20 (-10) 10).take 441 ++
        (boxTriples (-30) 30 (-20) 20 (-10) 10).drop 441) =
      (some 0, (-30, 0, 10, 0)) := by
    rw [List.foldl_append, h1, foldl_bestFitStep_fixed]
  rw [List.take_append_drop] at h2
  rw [express_q_best_fit_def, h2]

/-- A row of the particles table as the loaders see it.  Only the name and
mass columns feed the quantities the claims are about; the remaining columns
(category, generation, spin_half, ...) are carried through unchanged by the
source and are omitted. -/
structure ParticleRow where
  name : String
  mass : ℝ

/-- Quantizer applied to one fetched row, the loop body of
analyze_quantum_numbers (quantum_number_analysis.py lines 31-43), with the
Python numeric failure modes explicit: math.log raises ValueError on a
non-positive argument and nothing catches or converts it.  Returns
(name, n_quantized, q). -/
noncomputable def quantizeRow (m_e : ℝ) (row : ParticleRow) :
    Except PyError (String × ℝ × ℤ) := do
  let num ← pyLog (row.mass / m_e)
  let den ← pyLog phi
  let n := num / den
  let nq := (pyRound (n * 4) : ℝ) / 4
  .ok (row.name, nq, pyRound (4 * nq))

/-- The row loop of analyze_quantum_numbers over the fetched rows: an
exception in any row aborts the whole loop (the source has no try/except). -/
noncomputable def quantizeRows (m_e : ℝ) :
    List ParticleRow → Except PyError (List (String × ℝ × ℤ))
  | [] => .ok []
  | r :: rs => do
      let x ← quantizeRow m_e r
      let xs ← quantizeRows m_e rs
      .ok (x :: xs)

/-- The batch pipeline of analyze_quantum_numbers: the SQL query keeps only
rows WHERE mass_gev > 0 (ORDER BY mass only permutes rows and is immaterial
to the per-row quantities), then every surviving row is quantized. -/
noncomputable def analyzeQuantumNumbers (m_e : ℝ) (db : List ParticleRow) :
    Except PyError (List (String × ℝ × ℤ)) :=
  quantizeRows m_e (db.filter (fun r => decide (0 < r.mass)))

/-- On a positive mass and positive reference the quantizer row succeeds and
returns exactly the nQuantized and qCode of the quantizer contract. -/
theorem quantizeRow_pos (m_e : ℝ) (row : ParticleRow) (hm : 0 < row.mass)
    (hr : 0 < m_e) :
    quantizeRow m_e row =
      Except.ok (row.name, nQuantized row.mass m_e, qCode row.mass m_e) := by
  unfold quantizeRow pyLog nQuantized qCode nRaw
  have h1 : ¬ (row.mass / m_e ≤ 0) := not_le.mpr (div_pos hm hr)
  have h2 : ¬ (phi ≤ 0) := not_le.mpr phi_pos
  rw [if_neg h1, if_neg h2]
  rfl

/-- A batch whose rows all have positive mass succeeds. -/
theorem quantizeRows_ok (m_e : ℝ) (hr : 0 < m_e) (rows : List ParticleRow)
    (h : ∀ r ∈ rows, 0 < r.mass) :
    ∃ out, quantizeRows m_e rows = Except.ok out := by
  induction rows with
  | nil => exact ⟨[], rfl⟩
  | cons r rs ih =>
    obtain ⟨out, hout⟩ := ih (fun x hx => h x (List.mem_cons_of_mem r hx))
    refine ⟨(r.name, nQuantized r.mass m_e, qCode r.mass m_e) :: out, ?_⟩
    rw [quantizeRows, quantizeRow_pos m_e r (h r (List.mem_cons_self r rs)) hr,
      hout]
    rfl

/-- Counterexample to C4 as stated: the quantizer applied to a non-positive
mass fails with the raw math-domain ValueError, not with InvalidMassError
(which appears nowhere in the code). -/
theorem quantizer_error_counterexample :
    quantizeRow 1 ⟨"x", -1⟩ = Except.error PyError.valueError ∧
    PyError.valueError ≠ PyError.invalidMass := by
  constructor
  · have h1 : ((-1 : ℝ) / 1) ≤ 0 := by norm_num
    unfold quantizeRow pyLog
    rw [if_pos h1]
    rfl
  · decide

/-- C4 amended.  No InvalidMassError conversion exists: rows with
mass <= 0 are silently excluded by the SQL filter mass > 0 before the
quantizer runs, the batch over the surviving rows always succeeds for a
positive reference, and a direct quantizer call on a non-positive mass
propagates the raw ValueError. -/
theorem quantizer_boundary_behavior (m_e : ℝ) (db : List ParticleRow)
    (hr : 0 < m_e) :
    (∃ out, analyzeQuantumNumbers m_e db = Except.ok out) ∧
    (∀ r ∈ db, r.mass ≤ 0 →
      r ∉ db.filter (fun r => decide (0 < r.mass))) ∧
    (∀ nm : String, ∀ mass : ℝ, mass ≤ 0 →
      quantizeRow m_e ⟨nm, mass⟩ = Except.error PyError.valueError) := by
  refine ⟨?_, ?_, ?_⟩
  · apply quantizeRows_ok m_e hr
    intro r hrmem
    have := List.of_mem_filter hrmem
    simpa using this
  · intro r hrmem hneg hmem
    have := List.of_mem_filter hmem
    simp at this
    linarith
  · intro nm mass hneg
    have h1 : mass / m_e ≤ 0 :=
      div_nonpos_iff.mpr (Or.inr ⟨hneg, le_of_lt hr⟩)
    unfold quantizeRow pyLog
    rw [if_pos h1]
    rfl

/-- Witness for C4 amended at reference 1 and a store holding one record of
mass -1: the batch succeeds, and the direct quantizer call on that mass
yields the raw ValueError. -/
theorem quantizer_boundary_behavior_witness :
    (∃ out, analyzeQuantumNumbers 1 [⟨"x", -1⟩] = Except.ok out) ∧
    quantizeRow 1 ⟨"p", -1⟩ = Except.error PyError.valueError :=
  ⟨(quantizer_boundary_behavior 1 [⟨"x", -1⟩] (by norm_num)).1,
    (quantizer_boundary_behavior 1 [⟨"x", -1⟩] (by norm_num)).2.2 "p" (-1)
      (by norm_num)⟩

/-- The hard-coded exact integer q table shared (with identical entries) by
q_pattern_analysis.py, a5_casimir_ratio.py and definitive_a5_model_fixed.py. -/
def exact_q : List (String × ℤ) :=
  [("electron_neutrino", -224), ("muon_neutrino", -180),
   ("tau_neutrino", -162), ("electron", 0), ("up_quark", 12),
   ("down_quark", 18), ("strange_quark", 44), ("muon", 44),
   ("charm_quark", 65), ("tau", 68), ("bottom_quark", 75),
   ("top_quark", 106), ("W_boson", 100), ("Z_boson", 100),
   ("higgs_boson", 103)]

/-- Row mapping of q_pattern_analysis.load_data (lines 28-33):
n = exact_q[name] / 4 and q = exact_q[name]; subscripting the dict with a
name absent from the table raises KeyError; the stored mass plays no role. -/
noncomputable def loadRow_q_pattern (row : ParticleRow) :
    Except PyError (String × ℤ × ℝ) :=
  match exact_q.lookup row.name with
  | none => .error .keyError
  | some q => .ok (row.name, q, (q : ℝ) / 4)

/-- Row mapping of definitive_a5_model_fixed.load_data (lines 47-63):
q = exact_q[name] and n = exact_q[name] / 4, KeyError when the name is
absent; the stored mass plays no role. -/
noncomputable def loadRow_definitive (row : ParticleRow) :
    Except PyError (String × ℤ × ℝ) :=
  match exact_q.lookup row.name with
  | none => .error .keyError
  | some q => .ok (row.name, q, (q : ℝ) / 4)

/-- Row mapping of a5_casimir_ratio.load_data_with_exact_q (lines 61-72):
n = log(mass/m_e)/log(phi) is recomputed from the stored mass, and
q = exact_q_values.get(name, round(4*n)) falls back to the quantizer formula
for names absent from the table.  The enclosing query has already filtered
to mass > 0, so the log argument is positive. -/
noncomputable def loadRow_casimir (m_e : ℝ) (row : ParticleRow) :
    String × ℤ × ℝ :=
  (row.name, (exact_q.lookup row.name).getD (pyRound (4 * nRaw row.mass m_e)),
    nRaw row.mass m_e)

/-- The full a5_casimir_ratio loader over the store: filter mass > 0, then
map the row function. -/
noncomputable def load_data_casimir (m_e : ℝ) (db : List ParticleRow) :
    List (String × ℤ × ℝ) :=
  (db.filter (fun r => decide (0 < r.mass))).map (loadRow_casimir m_e)

/-- Counterexample to C9 as stated: the a5_casimir_ratio loader does not
report n = q/4 for known names; for a muon record of (arbitrary) mass 1 with
reference 1 it reports the mass-dependent raw exponent n = 0 alongside the
table value q = 44, and 0 is not 44/4. -/
theorem loader_n_counterexample :
    loadRow_casimir 1 ⟨"muon", 1⟩ = ("muon", 44, 0) ∧
    (0 : ℝ) ≠ (44 : ℝ) / 4 := by
  constructor
  · have hl : exact_q.lookup "muon" = some 44 := by decide
    have hn : nRaw 1 1 = 0 := by
      unfold nRaw
      rw [div_self one_ne_zero, Real.log_one, zero_div]
    unfold loadRow_casimir
    rw [show (ParticleRow.mk "muon" 1).mass = 1 from rfl,
      show (ParticleRow.mk "muon" 1).name = "muon" from rfl, hl, hn]
    rfl
  · norm_num

/-- C9 amended.  For every record whose name is in the exact_q table, all
three loaders report q as the table constant regardless of the stored mass;
the q_pattern_analysis and definitive_a5_model loaders also report n = q/4,
while the a5_casimir_ratio loader reports the raw mass-dependent exponent
instead; the quantizer-formula fallback exists only in the a5_casimir_ratio
loader, the other two raising KeyError on names absent from the table. -/
theorem loader_exact_q_behavior (m_e : ℝ) (row : ParticleRow) (qv : ℤ)
    (hq : exact_q.lookup row.name = some qv) :
    loadRow_q_pattern row = Except.ok (row.name, qv, (qv : ℝ) / 4) ∧
    loadRow_definitive row = Except.ok (row.name, qv, (qv : ℝ) / 4) ∧
    loadRow_casimir m_e row = (row.name, qv, nRaw row.mass m_e) ∧
    (∀ row2 : ParticleRow, exact_q.lookup row2.name = none →
      loadRow_casimir m_e row2 =
        (row2.name, pyRound (4 * nRaw row2.mass m_e), nRaw row2.mass m_e) ∧
      loadRow_q_pattern row2 = Except.error PyError.keyError ∧
      loadRow_definitive row2 = Except.error PyError.keyError) := by
  refine ⟨?_, ?_, ?_, ?_⟩
  · unfold loadRow_q_pattern
    rw [hq]
  · unfold loadRow_definitive
    rw [hq]
  · unfold loadRow_casimir
    rw [hq]
    rfl
  · intro row2 hnone
    refine ⟨?_, ?_, ?_⟩
    · unfold loadRow_casimir
      rw [hnone]
      rfl
    · unfold loadRow_q_pattern
      rw [hnone]
    · unfold loadRow_definitive
      rw [hnone]

/-- Witness for C9 amended at a muon record of mass 1 with reference 1. -/
theorem loader_exact_q_behavior_witness :
    loadRow_q_pattern ⟨"muon", 1⟩ = Except.ok ("muon", 44, (44 : ℝ) / 4) ∧
    loadRow_casimir 1 ⟨"muon", 1⟩ = ("muon", 44, nRaw 1 1) :=
  ⟨(loader_exact_q_behavior 1 ⟨"muon", 1⟩ 44 (by decide)).1,
    (loader_exact_q_behavior 1 ⟨"muon", 1⟩ 44 (by decide)).2.2.1⟩

/-- The exhaustive A5 state enumeration of predict_new_particles
(model_builder_clean.py lines 246-261), in construction order: the trivial
representation, then the 3D, 4D and 5D weights. -/
def allStates : List (String × ℤ × ℤ) :=
  [("1D", 1, 0),
   ("3D", 3, -1), ("3D", 3, 0), ("3D", 3, 1),
   ("4D", 4, -3), ("4D", 4, -1), ("4D", 4, 1), ("4D", 4, 3),
   ("5D", 5, -2), ("5D", 5, -1), ("5D", 5, 0), ("5D", 5, 1), ("5D", 5, 2)]

/-- One predicted record of predict_new_particles. -/
structure Prediction where
  rep : String
  dim : ℤ
  w : ℤ
  n : ℝ
  q : ℝ
  mass : ℝ

/-- Per-state prediction (model_builder_clean.py lines 263-277):
n = alpha*dim + beta*w + gamma, mass = m_e * phi ** n, q = 4 * n. -/
noncomputable def predictionOf (al be ga m_e : ℝ) (s : String × ℤ × ℤ) :
    Prediction where
  rep := s.1
  dim := s.2.1
  w := s.2.2
  n := al * (s.2.1 : ℝ) + be * (s.2.2 : ℝ) + ga
  q := 4 * (al * (s.2.1 : ℝ) + be * (s.2.2 : ℝ) + ga)
  mass := m_e * phi ^ (al * (s.2.1 : ℝ) + be * (s.2.2 : ℝ) + ga)

/-- Comparison by predicted mass, the sort key of line 280. -/
def predLE (p1 p2 : Prediction) : Prop := p1.mass ≤ p2.mass

noncomputable instance : DecidableRel predLE :=
  fun p1 p2 => inferInstanceAs (Decidable (p1.mass ≤ p2.mass))

instance : IsTotal Prediction predLE := ⟨fun a b => le_total a.mass b.mass⟩

instance : IsTrans Prediction predLE := ⟨fun _ _ _ hab hbc => le_trans hab hbc⟩

/-- predictions.sort(key=lambda x: x['mass']) (line 280), modelled by a
stable insertion sort on the mass key. -/
noncomputable def sortedPredictions (al be ga m_e : ℝ) : List Prediction :=
  (allStates.map (predictionOf al be ga m_e)).insertionSort predLE

/-- The ranked table the function prints (lines 287-289): the sorted
predictions restricted to the window 1e-20 < mass < 1e20. -/
noncomputable def predictionTable (al be ga m_e : ℝ) : List Prediction :=
  (sortedPredictions al be ga m_e).filter
    (fun p => decide ((1e-20 : ℝ) < p.mass ∧ p.mass < (1e20 : ℝ)))

/-- C8.  For every parameter set the predictor computes a prediction for
every enumerated (dim, weight) state, and its ranked table is sorted
ascending by predicted mass and contains exactly the predictions whose mass
lies inside the window 1e-20 < mass < 1e20. -/
theorem predictor_sorted_filtered (al be ga m_e : ℝ) :
    List.Sorted predLE (predictionTable al be ga m_e) ∧
    (∀ p ∈ predictionTable al be ga m_e,
      (1e-20 : ℝ) < p.mass ∧ p.mass < 1e20) ∧
    (∀ s ∈ allStates,
      (1e-20 : ℝ) < (predictionOf al be ga m_e s).mass →
      (predictionOf al be ga m_e s).mass < 1e20 →
      predictionOf al be ga m_e s ∈ predictionTable al be ga m_e) ∧
    (∀ p ∈ predictionTable al be ga m_e,
      ∃ s ∈ allStates, p = predictionOf al be ga m_e s) := by
  refine ⟨?_, ?_, ?_, ?_⟩
  · exact (List.sorted_insertionSort predLE _).filter _
  · intro p hp
    have h2 := List.of_mem_filter hp
    simpa using h2
  · intro s hs h1 h2
    apply List.mem_filter.mpr
    constructor
    · unfold sortedPredictions
      rw [List.mem_insertionSort]
      exact List.mem_map_of_mem (predictionOf al be ga m_e) hs
    · simp only [decide_eq_true_eq]
      exact ⟨h1, h2⟩
  · intro p hp
    have h1 := List.mem_of_mem_filter hp
    unfold sortedPredictions at h1
    rw [List.mem_insertionSort] at h1
    obtain ⟨s, hs, hps⟩ := List.mem_map.mp h1
    exact ⟨s, hs, hps.symm⟩

/-- Witness for C8 with al = be = ga = 0 and reference 1: the trivial state
has predicted mass 1, inside the window, so it appears in the table. -/
theorem predictor_sorted_filtered_witness :
    predictionOf 0 0 0 1 ("1D", 1, 0) ∈ predictionTable 0 0 0 1 := by
  have hmass : (predictionOf 0 0 0 1 ("1D", 1, 0)).mass = 1 := by
    show (1 : ℝ) * phi ^ ((0 : ℝ) * ((1 : ℤ) : ℝ) + 0 * ((0 : ℤ) : ℝ) + 0) = 1
    norm_num [Real.rpow_zero]
  apply (predictor_sorted_filtered 0 0 0 1).2.2.1 ("1D", 1, 0)
  · simp [allStates]
  · rw [hmass]
    norm_num
  · rw [hmass]
    norm_num

/-- The design-matrix action X @ beta of the fitter, as a linear map between
Euclidean spaces so that least-squares distance is the Euclidean norm the
callers minimize. -/
noncomputable def mulVecLinE {N k : ℕ} (X : Matrix (Fin N) (Fin k) ℝ) :
    EuclideanSpace ℝ (Fin k) →ₗ[ℝ] EuclideanSpace ℝ (Fin N) where
  toFun v := fun i => ∑ j, X i j * v j
  map_add' u v := by
    funext i
    simp [mul_add, Finset.sum_add_distrib]
  map_smul' c v := by
    funext i
    simp only [RingHom.id_apply, PiLp.smul_apply, smul_eq_mul, Finset.mul_sum]
    apply Finset.sum_congr rfl
    intro j hj
    ring

/-- A least-squares solution: beta minimizes the Euclidean error
norm of X @ beta - y over all coefficient vectors. -/
noncomputable def IsLeastSquares {N k : ℕ} (X : Matrix (Fin N) (Fin k) ℝ)
    (y : EuclideanSpace ℝ (Fin N)) (b : EuclideanSpace ℝ (Fin k)) : Prop :=
  ∀ c, ‖mulVecLinE X b - y‖ ≤ ‖mulVecLinE X c - y‖

/-- The minimum-norm least-squares solution: a least-squares solution of
smallest Euclidean norm. -/
noncomputable def IsMinNormSolution {N k : ℕ} (X : Matrix (Fin N) (Fin k) ℝ)
    (y : EuclideanSpace ℝ (Fin N)) (b : EuclideanSpace ℝ (Fin k)) : Prop :=
  IsLeastSquares X y b ∧ ∀ c, IsLeastSquares X y c → ‖b‖ ≤ ‖c‖

/-- Every design matrix and target, including N < k and rank-deficient X,
admits exactly one minimum-norm least-squares solution. -/
theorem existsUnique_minNormSolution {N k : ℕ} (X : Matrix (Fin N) (Fin k) ℝ)
    (y : EuclideanSpace ℝ (Fin N)) : ∃! b, IsMinNormSolution X y b := by
  set T := mulVecLinE X with hT
  set R := LinearMap.range T with hR
  set p : EuclideanSpace ℝ (Fin N) :=
    ((orthogonalProjection R y : R) : EuclideanSpace ℝ (Fin N)) with hp
  have hpR : p ∈ R := SetLike.coe_mem (orthogonalProjection R y)
  obtain ⟨b1, hb1⟩ := LinearMap.mem_range.mp hpR
  have key : ∀ c, ‖T c - y‖ ^ 2 = ‖T c - p‖ ^ 2 + ‖p - y‖ ^ 2 := by
    intro c
    have h1 : T c - p ∈ R := R.sub_mem (LinearMap.mem_range_self T c) hpR
    have h2 : y - p ∈ Rᗮ := sub_orthogonalProjection_mem_orthogonal y
    have horth : inner (T c - p) (p - y) = (0 : ℝ) := by
      have h3 : inner (T c - p) (y - p) = (0 : ℝ) :=
        Submodule.inner_right_of_mem_orthogonal h1 h2
      have h4 : p - y = -(y - p) := by abel
      rw [h4, inner_neg_right, h3, neg_zero]
    have hsum : T c - y = (T c - p) + (p - y) := by abel
    rw [hsum, norm_add_sq_real, horth]
    ring
  have hls_iff : ∀ c, IsLeastSquares X y c ↔ T c = p := by
    intro c
    constructor
    · intro h
      have h1 : ‖T c - y‖ ≤ ‖T b1 - y‖ := h b1
      have h2 : ‖T b1 - y‖ ^ 2 = ‖p - y‖ ^ 2 := by
        rw [key b1, hb1, sub_self, norm_zero]
        ring
      have h3 : ‖T c - y‖ ^ 2 ≤ ‖p - y‖ ^ 2 := by
        rw [← h2]
        exact pow_le_pow_left₀ (norm_nonneg _) h1 2
      have h4 : ‖T c - p‖ ^ 2 ≤ 0 := by
        have h5 := key c
        linarith
      have h6 : ‖T c - p‖ = 0 := by
        have h7 := sq_nonneg ‖T c - p‖
        have h8 : ‖T c - p‖ ^ 2 = 0 := le_antisymm h4 (by positivity)
        exact (pow_eq_zero_iff two_ne_zero).mp h8
      exact sub_eq_zero.mp (norm_eq_zero.mp h6)
    · intro h c2
      have h3 : ‖T c - y‖ ^ 2 ≤ ‖T c2 - y‖ ^ 2 := by
        have k2 := key c2
        have h5 := sq_nonneg ‖T c2 - p‖
        rw [h]
        linarith
      exact (pow_le_pow_iff_left₀ (norm_nonneg _) (norm_nonneg _)
        (two_ne_zero)).mp h3
  set K := LinearMap.ker T with hK
  set b0 : EuclideanSpace ℝ (Fin k) :=
    b1 - ((orthogonalProjection K b1 : K) : EuclideanSpace ℝ (Fin k))
    with hb0
  have hprojK :
      ((orthogonalProjection K b1 : K) : EuclideanSpace ℝ (Fin k)) ∈ K :=
    SetLike.coe_mem (orthogonalProjection K b1)
  have hTb0 : T b0 = p := by
    rw [hb0, map_sub, hb1, LinearMap.mem_ker.mp hprojK, sub_zero]
  have hb0K : b0 ∈ Kᗮ := sub_orthogonalProjection_mem_orthogonal b1
  have hnorm : ∀ c, T c = p → ‖b0‖ ^ 2 + ‖c - b0‖ ^ 2 = ‖c‖ ^ 2 := by
    intro c hc
    have hck : c - b0 ∈ K := by
      rw [hK, LinearMap.mem_ker, map_sub, hc, hTb0, sub_self]
    have horth : inner b0 (c - b0) = (0 : ℝ) := by
      have := Submodule.inner_right_of_mem_orthogonal hck hb0K
      rw [real_inner_comm] at this
      exact this
    have hsplit : c = b0 + (c - b0) := by abel
    calc ‖b0‖ ^ 2 + ‖c - b0‖ ^ 2
        = ‖b0 + (c - b0)‖ ^ 2 := by rw [norm_add_sq_real, horth]; ring
      _ = ‖c‖ ^ 2 := by rw [← hsplit]
  have hmin : IsMinNormSolution X y b0 := by
    constructor
    · exact (hls_iff b0).mpr hTb0
    · intro c hc
      have hcp := (hls_iff c).mp hc
      have h1 := hnorm c hcp
      have h2 : ‖b0‖ ^ 2 ≤ ‖c‖ ^ 2 := by
        have := sq_nonneg ‖c - b0‖
        linarith
      exact (pow_le_pow_iff_left₀ (norm_nonneg _) (norm_nonneg _)
        (two_ne_zero)).mp h2
  refine ⟨b0, hmin, ?_⟩
  intro c hc
  have hcp := (hls_iff c).mp hc.1
  have h1 := hnorm c hcp
  have h2 : ‖c‖ ≤ ‖b0‖ := hc.2 b0 hmin.1
  have h3 : ‖c‖ ^ 2 ≤ ‖b0‖ ^ 2 := pow_le_pow_left₀ (norm_nonneg _) h2 2
  have h4 : ‖c - b0‖ ^ 2 ≤ 0 := by linarith
  have h5 : ‖c - b0‖ = 0 := by
    have h6 : ‖c - b0‖ ^ 2 = 0 := le_antisymm h4 (by positivity)
    exact (pow_eq_zero_iff two_ne_zero).mp h6
  exact sub_eq_zero.mp (norm_eq_zero.mp h5)

/-- Modelled from the spec: np.linalg.lstsq(X, y, rcond=None), the external
SVD-based numpy solver every fitter call delegates to
(definitive_a5_model_fixed.py line 177, a5_casimir_ratio.py lines 146 and
182, model_builder_clean.py line 138, q_pattern_analysis.py line 204), is
specified to return the minimum-norm least-squares solution;  it is modelled
here as the unique such solution. -/
noncomputable def lstsq {N k : ℕ} (X : Matrix (Fin N) (Fin k) ℝ)
    (y : EuclideanSpace ℝ (Fin N)) : EuclideanSpace ℝ (Fin k) :=
  (existsUnique_minNormSolution X y).exists.choose

/-- C7.  For every sample count N, feature count k, design matrix X and
target y - including the underdetermined case N < k and rank-deficient X -
the fitter returns the minimum-norm least-squares solution, which exists and
is unique, so no input is rejected. -/
theorem lstsq_minNormSolution {N k : ℕ} (X : Matrix (Fin N) (Fin k) ℝ)
    (y : EuclideanSpace ℝ (Fin N)) :
    IsMinNormSolution X y (lstsq X y) ∧
    ∀ b, IsMinNormSolution X y b → b = lstsq X y := by
  have h := existsUnique_minNormSolution X y
  have h1 : IsMinNormSolution X y (lstsq X y) := h.exists.choose_spec
  exact ⟨h1, fun b hb => h.unique hb h1⟩

/-- Witness for C7 at the rank-deficient 1-by-1 design matrix 0 and target
(1): the zero vector is the minimum-norm least-squares solution, so the
fitter returns it. -/
theorem lstsq_minNormSolution_witness :
    (0 : EuclideanSpace ℝ (Fin 1)) =
      lstsq (0 : Matrix (Fin 1) (Fin 1) ℝ) (fun _ => (1 : ℝ)) := by
  apply (lstsq_minNormSolution (0 : Matrix (Fin 1) (Fin 1) ℝ)
    (fun _ => (1 : ℝ))).2
  have hzero : ∀ c : EuclideanSpace ℝ (Fin 1),
      mulVecLinE (0 : Matrix (Fin 1) (Fin 1) ℝ) c = 0 := by
    intro c
    funext i
    simp [mulVecLinE]
  constructor
  · intro c
    rw [hzero, hzero]
  · intro c hc
    rw [norm_zero]
    exact norm_nonneg c
